import Mathlib

/-!
Verification of the constraint-generation and trace-population core of the
curta repository: the FpMulConst field-multiplication instruction
(starky/src/arithmetic/field/mul_const.rs), the byte-operation instruction
writer (curta/src/chip/uint/bytes/operations/instruction.rs) and the BLAKE2b
input preparation (curta/src/machine/hash/blake/blake2b/builder.rs).

Machine integers are modelled as Nat/Int.  Trace cells hold the canonical
integer representatives of the field elements that the Rust code injects via
from_canonical_u16/u32; polynomials over trace cells are coefficient lists
over an arbitrary commutative ring, so that identities proved over the
integers transfer to every base field through the canonical ring map.
-/

set_option maxHeartbeats 4000000

/-- Base of the limb decomposition: the constant LIMB = 2^16 of the source. -/
def LIMB : ℕ := 2 ^ 16

/-- Coefficientwise sum of two coefficient lists, the shorter list padded
with zeros: model of the polynomial addition used by PolynomialOps. -/
def polyAdd {R : Type} [CommRing R] : List R → List R → List R
  | [], ys => ys
  | x :: xs, [] => x :: xs
  | x :: xs, y :: ys => (x + y) :: polyAdd xs ys

/-- Coefficientwise difference of two coefficient lists, the shorter list
padded with zeros: model of PolynomialOps::sub. -/
def polySub {R : Type} [CommRing R] : List R → List R → List R
  | [], ys => ys.map (fun y => -y)
  | x :: xs, [] => x :: xs
  | x :: xs, y :: ys => (x - y) :: polySub xs ys

/-- Schoolbook product of two coefficient lists: model of PolynomialOps::mul
and of scalar_poly_mul (which is the same convolution with one operand held
in the scalar field). -/
def polyMul {R : Type} [CommRing R] : List R → List R → List R
  | [], _ => []
  | x :: xs, ys => polyAdd (ys.map (fun y => x * y)) ((0 : R) :: polyMul xs ys)

/-- Evaluation of a coefficient list at a point (Horner form). -/
def polyEval {R : Type} [CommRing R] : List R → R → R
  | [], _ => 0
  | x :: xs, r => x + r * polyEval xs r

/-- Modelled from the spec: the quotient W(X) = V(X) / (X - r) computed by
extract_witness_and_shift (crate::arithmetic::utils, not under src/).  The
spec states the witness encodes the quotient of the vanishing polynomial by
(X - 2^16); coefficient i of the quotient of a list v by (X - r) is the
Horner evaluation of the coefficients of v above position i. -/
def rootQuotient {R : Type} [CommRing R] (r : R) (v : List R) : List R :=
  (List.range (v.length - 1)).map (fun i => polyEval (v.drop (i + 1)) r)

/-- Little-endian base-2^16 digit list of a natural number, k limbs: model of
Polynomial::from_biguint_num(x, 16, k).  Modelled from the spec for the part
not under src/: a FieldRegister holds the low NB_LIMBS 16-bit limbs of the
integer it represents. -/
def limbsOf : ℕ → ℕ → List ℕ
  | _, 0 => []
  | n, k + 1 => (n % LIMB) :: limbsOf (n / LIMB) k

/-- Value of a little-endian base-2^16 limb list; this is also the big-integer
value that trace_row accumulates from the full constant array c via
`c += BigUint::from(limb) << (16 * i)`. -/
def valLimbs : List ℕ → ℕ
  | [] => 0
  | x :: xs => x + LIMB * valLimbs xs

/-- Integer-coefficient limb list, as used for the i64 polynomials of
trace_row. -/
def intLimbs (n k : ℕ) : List ℤ :=
  (limbsOf n k).map (fun d => (Nat.cast d : ℤ))

/-- Decoding of a register's limb columns back into an integer (evaluation of
the limb list at 2^16). -/
def decodeLimbs (l : List ℤ) : ℤ :=
  polyEval l ((LIMB : ℕ) : ℤ)

/-- Parameter set of a field: NB_LIMBS, NB_WITNESS_LIMBS, WITNESS_OFFSET and
the modulus, the compile-time surface the spec lists for FieldParameters. -/
structure FieldParams where
  nbLimbs : ℕ
  nbWitnessLimbs : ℕ
  witnessOffset : ℕ
  modulus : ℕ

/-- Modelled from the spec: the Fp25519 parameter set (p = 2^255 - 19,
16 limbs of 16 bits, 30 witness limbs, witness offset 2^20); the concrete
Fp25519Param record lives outside src/. -/
def Fp25519Param : FieldParams :=
  { nbLimbs := 16
    nbWitnessLimbs := 30
    witnessOffset := 2 ^ 20
    modulus := 2 ^ 255 - 19 }

/-- The result value computed by FpMulConst::trace_row: (a * c) mod p, where
c is the big integer accumulated from the whole constant limb array. -/
def mulResult (P : FieldParams) (c : List ℕ) (a : ℕ) : ℕ :=
  a * valLimbs c % P.modulus

/-- The carry value computed by FpMulConst::trace_row: (a * c - result) / p. -/
def mulCarry (P : FieldParams) (c : List ℕ) (a : ℕ) : ℕ :=
  (a * valLimbs c - mulResult P c a) / P.modulus

/-- The i64 vanishing polynomial V = A * C - R - Carry * P formed by
FpMulConst::trace_row from the NB_LIMBS-limb decompositions. -/
def traceVanishing (P : FieldParams) (c : List ℕ) (a : ℕ) : List ℤ :=
  polySub
    (polySub (polyMul (intLimbs a P.nbLimbs) (intLimbs (valLimbs c) P.nbLimbs))
      (intLimbs (mulResult P c a) P.nbLimbs))
    (polyMul (intLimbs (mulCarry P c a) P.nbLimbs) (intLimbs P.modulus P.nbLimbs))

/-- The four register segments written by FpMulConst::trace_row, plus the
BigUint result it returns. -/
structure TraceRowOut where
  resultLimbs : List ℤ
  carryLimbs : List ℤ
  wLow : List ℤ
  wHigh : List ℤ
  result : ℕ

/-- Model of FpMulConst::trace_row.  The witness quotient coefficients are
shifted by WITNESS_OFFSET and cast to u32 (truncation mod 2^32, the meaning
of `as u32` on an i64), then split into low/high 16-bit digits, the model of
split_digits. -/
def traceRow (P : FieldParams) (c : List ℕ) (a : ℕ) : TraceRowOut :=
  let wShifted := (rootQuotient ((LIMB : ℕ) : ℤ) (traceVanishing P c a)).map
      (fun q => (q + (P.witnessOffset : ℤ)) % (2 ^ 32 : ℤ))
  { resultLimbs := intLimbs (mulResult P c a) P.nbLimbs
    carryLimbs := intLimbs (mulCarry P c a) P.nbLimbs
    wLow := wShifted.map (fun x => x % ((LIMB : ℕ) : ℤ))
    wHigh := wShifted.map (fun x => x / ((LIMB : ℕ) : ℤ))
    result := mulResult P c a }

/-- The row vector [result, carry, witness_low, witness_high] returned by
trace_row, in the order the Rust code extends `row`. -/
def traceRowVec (P : FieldParams) (c : List ℕ) (a : ℕ) : List ℤ :=
  (traceRow P c a).resultLimbs ++ (traceRow P c a).carryLimbs ++
    (traceRow P c a).wLow ++ (traceRow P c a).wHigh

/-- The three debug_assert! conditions checked in FpMulConst::trace_row:
result < p, carry < p, and carry * p = a * c - result.  In a release build
these assertions are compiled out; in a debug build a failure panics. -/
def traceRowChecks (P : FieldParams) (c : List ℕ) (a : ℕ) : Prop :=
  mulResult P c a < P.modulus ∧ mulCarry P c a < P.modulus ∧
    mulCarry P c a * P.modulus = a * valLimbs c - mulResult P c a

instance (P : FieldParams) (c : List ℕ) (a : ℕ) : Decidable (traceRowChecks P c a) := by
  unfold traceRowChecks; infer_instance

/-- Modelled from the spec: TraceHandle::write (crate::arithmetic::trace, not
under src/) records the row for the trace generator; in-range writes during
the witness phase succeed.  The state is the list of written (row_index, row)
pairs. -/
def traceHandleWrite (st : List (ℕ × List ℤ)) (rowIndex : ℕ) (row : List ℤ) :
    Option (List (ℕ × List ℤ)) :=
  some ((rowIndex, row) :: st)

/-- Model of TraceHandle::write_fpmul_const: run trace_row, hand the row to
the writer, and return the BigUint result. -/
def writeFpmulConst (P : FieldParams) (st : List (ℕ × List ℤ)) (rowIndex : ℕ)
    (c : List ℕ) (a : ℕ) : Option (List (ℕ × List ℤ) × ℕ) :=
  match traceHandleWrite st rowIndex (traceRowVec P c a) with
  | some st2 => some (st2, (traceRow P c a).result)
  | none => none

/-- Model of the packed (prover-side) constraints of
FpMulConst::packed_generic_constraints, over an arbitrary coefficient ring:
the register values are the inputs, the constant array c is injected via
from_canonical_u16 and truncated to NB_LIMBS, and one residue is emitted per
coefficient of the vanishing polynomial. -/
def packedConstraints (R : Type) [CommRing R] (P : FieldParams) (aL : List R)
    (c : List ℕ) (resultL carryL wlowL whighL : List R) : List R :=
  let cR : List R := (c.map (fun x => (Nat.cast x : R))).take P.nbLimbs
  let ac := polyMul aL cR
  let acMinusResult := polySub ac resultL
  let pL : List R := (limbsOf P.modulus P.nbLimbs).map (fun x => (Nat.cast x : R))
  let mulTimesCarry := polyMul carryL pL
  let vanishing := polySub acMinusResult mulTimesCarry
  let limb : R := (LIMB : R)
  let wShifted := List.zipWith (fun x y => x + y * limb) wlowL whighL
  let w := wShifted.map (fun x => x - (P.witnessOffset : R))
  let wTimesRoot := polyMul w [-limb, 1]
  (List.range vanishing.length).map
    (fun i => vanishing.getD i 0 - wTimesRoot.getD i 0)

/-- Modelled from the spec: PolynomialGadget addition over circuit targets
(the in-circuit counterpart of polynomial addition), one output target per
coefficient of the longer input. -/
def gadgetAdd {R : Type} [CommRing R] (xs ys : List R) : List R :=
  (List.range (max xs.length ys.length)).map (fun k => xs.getD k 0 + ys.getD k 0)

/-- Modelled from the spec: PolynomialGadget subtraction over circuit
targets. -/
def gadgetSub {R : Type} [CommRing R] (xs ys : List R) : List R :=
  (List.range (max xs.length ys.length)).map (fun k => xs.getD k 0 - ys.getD k 0)

/-- Modelled from the spec: PolynomialGadget schoolbook multiplication over
circuit targets, one accumulated target per convolution coefficient. -/
def gadgetMul {R : Type} [CommRing R] (xs ys : List R) : List R :=
  (List.range (xs.length + ys.length - 1)).map
    (fun k => ∑ i ∈ Finset.range (k + 1), xs.getD i 0 * ys.getD (k - i) 0)

/-- Model of the recursive-circuit constraints of
FpMulConst::ext_circuit_constraints, built from the gadget operations: the
same register values, the same truncated constant, the witness reconstructed
by a scalar multiplication, an addition and a constant subtraction, and the
coefficientwise difference from the vanishing polynomial emitted as
constraints. -/
def extCircuitConstraints (R : Type) [CommRing R] (P : FieldParams) (aL : List R)
    (c : List ℕ) (resultL carryL wlowL whighL : List R) : List R :=
  let cR : List R := (c.map (fun x => (Nat.cast x : R))).take P.nbLimbs
  let ac := gadgetMul aL cR
  let acMinusResult := gadgetSub ac resultL
  let pL : List R := (limbsOf P.modulus P.nbLimbs).map (fun x => (Nat.cast x : R))
  let mulTimesCarry := gadgetMul carryL pL
  let vanishing := gadgetSub acMinusResult mulTimesCarry
  let limb : R := (LIMB : R)
  let wHighTimesLimb := whighL.map (fun x => x * limb)
  let wShifted := gadgetAdd wlowL wHighTimesLimb
  let w := wShifted.map (fun x => x - (P.witnessOffset : R))
  let wTimesRoot := gadgetMul w [-limb, 1]
  gadgetSub vanishing wTimesRoot

/-- The packed constraints evaluated on a row written by trace_row, with the
operand register holding the limb decomposition of a (the content written by
write_field, modelled from the spec for the writer outside src/). -/
def rowConstraints (P : FieldParams) (c : List ℕ) (a : ℕ) : List ℤ :=
  packedConstraints ℤ P (intLimbs a P.nbLimbs) c (traceRow P c a).resultLimbs
    (traceRow P c a).carryLimbs (traceRow P c a).wLow (traceRow P c a).wHigh

/-- Region-tagged column slice, the spec's MemorySlice
(region_kind, offset, length). -/
inductive MemorySlice where
  | locSlice (offset len : ℕ)
  | nextSlice (offset len : ℕ)
  | publicSlice (offset len : ℕ)
  | globalSlice (offset len : ℕ)
deriving DecidableEq, Repr

/-- The register layout of an FpMulConst instruction: operand a, constant
limb array c, and the owned result, carry and witness registers. -/
structure FpMulConstRegs where
  a : MemorySlice
  c : List ℕ
  result : MemorySlice
  carry : MemorySlice
  witnessLow : MemorySlice
  witnessHigh : MemorySlice
deriving DecidableEq, Repr

/-- Model of FpMulConst::memory_vec: the slice list the instruction reports,
namely the a register and the result register. -/
def memoryVec (inst : FpMulConstRegs) : List MemorySlice :=
  [inst.a, inst.result]

/-- The slices FpMulConst::assign_row writes into the trace: result, carry,
witness_low and witness_high, in the order the Rust code assigns them. -/
def assignedSlices (inst : FpMulConstRegs) : List MemorySlice :=
  [inst.result, inst.carry, inst.witnessLow, inst.witnessHigh]

/-- Modelled from the spec: a byte operation drawn from the fixed set with
its operand registers (or, at value level, its operand byte values). -/
inductive ByteOp (T : Type) where
  | and (a b res : T)
  | xor (a b res : T)
  | or (a b res : T)
  | not (a res : T)
  | shr (a b res : T)
  | rot (a b res : T)
  | rangeCheck (a : T)
deriving DecidableEq, Repr

/-- Right rotation of a byte by k bit positions. -/
def rotr8 (x k : ℕ) : ℕ :=
  x / 2 ^ (k % 8) + x % 2 ^ (k % 8) * 2 ^ (8 - k % 8)

/-- The per-row trace writer: a log of ((row, column), value) cell writes. -/
structure TraceWriter where
  cells : List ((ℕ × ℕ) × ℕ)
deriving DecidableEq, Repr

/-- Read the current value of a cell (most recent write wins, absent cells
read as zero). -/
def TraceWriter.read (w : TraceWriter) (row col : ℕ) : ℕ :=
  ((w.cells.find? (fun e => e.1 == (row, col))).map Prod.snd).getD 0

/-- Record a cell write. -/
def TraceWriter.writeCell (w : TraceWriter) (row col v : ℕ) : TraceWriter :=
  ⟨((row, col), v) :: w.cells⟩

/-- Modelled from the spec: ByteOperation::write (operations/value.rs, not
under src/) computes the operation result on the current operand values,
writes it into the result register, and returns the value-level operation. -/
def ByteOp.writeRow (op : ByteOp ℕ) (w : TraceWriter) (row : ℕ) :
    TraceWriter × ByteOp ℕ :=
  match op with
  | .and a b r =>
      let x := w.read row a
      let y := w.read row b
      let v := Nat.land x y
      (w.writeCell row r v, .and x y v)
  | .xor a b r =>
      let x := w.read row a
      let y := w.read row b
      let v := Nat.xor x y
      (w.writeCell row r v, .xor x y v)
  | .or a b r =>
      let x := w.read row a
      let y := w.read row b
      let v := Nat.lor x y
      (w.writeCell row r v, .or x y v)
  | .not a r =>
      let x := w.read row a
      let v := 255 - x
      (w.writeCell row r v, .not x v)
  | .shr a b r =>
      let x := w.read row a
      let y := w.read row b
      let v := x / 2 ^ (y % 8)
      (w.writeCell row r v, .shr x y v)
  | .rot a b r =>
      let x := w.read row a
      let y := w.read row b
      let v := rotr8 x y
      (w.writeCell row r v, .rot x y v)
  | .rangeCheck a => (w, .rangeCheck (w.read row a))

/-- Modelled from the spec: the deterministic u32 lookup digest of a
value-level byte operation, keyed by the operation kind and packing the
operand and result bytes. -/
def ByteOp.lookupDigestValue : ByteOp ℕ → ℕ
  | .and a b r => 0 + 2 ^ 8 * a + 2 ^ 16 * b + 2 ^ 24 * r
  | .xor a b r => 1 + 2 ^ 8 * a + 2 ^ 16 * b + 2 ^ 24 * r
  | .or a b r => 2 + 2 ^ 8 * a + 2 ^ 16 * b + 2 ^ 24 * r
  | .not a r => 3 + 2 ^ 8 * a + 2 ^ 24 * r
  | .shr a b r => 4 + 2 ^ 8 * a + 2 ^ 16 * b + 2 ^ 24 * r
  | .rot a b r => 5 + 2 ^ 8 * a + 2 ^ 16 * b + 2 ^ 24 * r
  | .rangeCheck a => 6 + 2 ^ 8 * a

/-- The byte-operation instruction: inner operation, digest register column,
and the global flag. -/
structure ByteOperationInstruction where
  inner : ByteOp ℕ
  digest : ℕ
  global : Bool
deriving DecidableEq, Repr

/-- Model of ByteOperationInstruction::write (Instruction::write in
instruction.rs): skip global instructions on rows other than 0, otherwise
write the inner operation and its lookup digest. -/
def ByteOperationInstruction.write (inst : ByteOperationInstruction)
    (w : TraceWriter) (rowIndex : ℕ) : TraceWriter :=
  if inst.global ∧ rowIndex ≠ 0 then w
  else
    let step := inst.inner.writeRow w rowIndex
    step.1.writeCell rowIndex inst.digest step.2.lookupDigestValue

/-- The AirWriter surface: an optional concrete row index plus a log of
(column, value) writes in the current window. -/
structure AirWriter where
  rowIndex : Option ℕ
  cells : List (ℕ × ℕ)
deriving DecidableEq, Repr

/-- Read a cell through the AirWriter (most recent write wins). -/
def AirWriter.read (w : AirWriter) (col : ℕ) : ℕ :=
  ((w.cells.find? (fun e => e.1 == col)).map Prod.snd).getD 0

/-- Record a cell write through the AirWriter. -/
def AirWriter.writeCell (w : AirWriter) (col v : ℕ) : AirWriter :=
  ⟨w.rowIndex, (col, v) :: w.cells⟩

/-- Modelled from the spec: ByteOperation::write_to_air, the AirWriter
counterpart of ByteOp.writeRow. -/
def ByteOp.writeAir (op : ByteOp ℕ) (w : AirWriter) : AirWriter × ByteOp ℕ :=
  match op with
  | .and a b r =>
      let x := w.read a
      let y := w.read b
      let v := Nat.land x y
      (w.writeCell r v, .and x y v)
  | .xor a b r =>
      let x := w.read a
      let y := w.read b
      let v := Nat.xor x y
      (w.writeCell r v, .xor x y v)
  | .or a b r =>
      let x := w.read a
      let y := w.read b
      let v := Nat.lor x y
      (w.writeCell r v, .or x y v)
  | .not a r =>
      let x := w.read a
      let v := 255 - x
      (w.writeCell r v, .not x v)
  | .shr a b r =>
      let x := w.read a
      let y := w.read b
      let v := x / 2 ^ (y % 8)
      (w.writeCell r v, .shr x y v)
  | .rot a b r =>
      let x := w.read a
      let y := w.read b
      let v := rotr8 x y
      (w.writeCell r v, .rot x y v)
  | .rangeCheck a => (w, .rangeCheck (w.read a))

/-- The unconditional body of write_to_air: write the inner operation, then
the lookup digest of the returned value. -/
def ByteOperationInstruction.writeToAirBody (inst : ByteOperationInstruction)
    (w : AirWriter) : AirWriter :=
  let step := inst.inner.writeAir w
  step.1.writeCell inst.digest step.2.lookupDigestValue

/-- Model of ByteOperationInstruction::write_to_air: when the writer reports
a concrete row index, global instructions skip every row other than 0;
without a row index the body always runs. -/
def ByteOperationInstruction.writeToAir (inst : ByteOperationInstruction)
    (w : AirWriter) : AirWriter :=
  match w.rowIndex with
  | some r => if inst.global ∧ r ≠ 0 then w else inst.writeToAirBody w
  | none => inst.writeToAirBody w

/-- The digest-chunk index of the BLAKE2b test harness:
(msg_len - 1) / 128, with 0 for the empty message. -/
def msgDigestIdx (msgLen : ℕ) : ℕ :=
  if msgLen = 0 then 0 else (msgLen - 1) / 128

/-- The t_values pushed per padded chunk by test_blake2b: the running byte
count 128 * (i + 1), except at the digest chunk where the message length is
pushed. -/
def tValues (msgLen maxChunks : ℕ) : List ℕ :=
  (List.range maxChunks).map
    (fun i => if i = msgDigestIdx msgLen then msgLen else 128 * (i + 1))

/-- The digest_bits pushed per padded chunk by test_blake2b. -/
def digestBits (msgLen maxChunks : ℕ) : List ℕ :=
  (List.range maxChunks).map (fun i => if i = msgDigestIdx msgLen then 1 else 0)

/-- The end_bits pushed per padded chunk by test_blake2b. -/
def endBits (maxChunks : ℕ) : List ℕ :=
  (List.range maxChunks).map (fun i => if i = maxChunks - 1 then 1 else 0)

/-! ### Coefficient access lemmas for the polynomial operations -/

theorem polyAdd_getD {R : Type} [CommRing R] (xs ys : List R) (k : ℕ) :
    (polyAdd xs ys).getD k 0 = xs.getD k 0 + ys.getD k 0 := by
  induction xs generalizing ys k with
  | nil => simp [polyAdd]
  | cons x xs ih =>
    cases ys with
    | nil => simp [polyAdd]
    | cons y ys =>
      cases k with
      | zero => simp [polyAdd]
      | succ k => simpa [polyAdd] using ih ys k

theorem mapNeg_getD {R : Type} [CommRing R] (ys : List R) (k : ℕ) :
    (ys.map (fun y => -y)).getD k 0 = -(ys.getD k 0) := by
  induction ys generalizing k with
  | nil => simp
  | cons y ys ih =>
    cases k with
    | zero => simp
    | succ k => simpa using ih k

theorem polySub_getD {R : Type} [CommRing R] (xs ys : List R) (k : ℕ) :
    (polySub xs ys).getD k 0 = xs.getD k 0 - ys.getD k 0 := by
  induction xs generalizing ys k with
  | nil => rw [polySub, mapNeg_getD]; simp
  | cons x xs ih =>
    cases ys with
    | nil => simp [polySub]
    | cons y ys =>
      cases k with
      | zero => simp [polySub]
      | succ k => simpa [polySub] using ih ys k

theorem mapMulLeft_getD {R : Type} [CommRing R] (x : R) (ys : List R) (k : ℕ) :
    (ys.map (fun y => x * y)).getD k 0 = x * ys.getD k 0 := by
  induction ys generalizing k with
  | nil => simp
  | cons y ys ih =>
    cases k with
    | zero => simp
    | succ k => simpa using ih k

theorem polyMul_getD {R : Type} [CommRing R] (xs ys : List R) (k : ℕ) :
    (polyMul xs ys).getD k 0 =
      ∑ i ∈ Finset.range (k + 1), xs.getD i 0 * ys.getD (k - i) 0 := by
  induction xs generalizing k with
  | nil => simp [polyMul]
  | cons x xs ih =>
    have base : (polyMul (x :: xs) ys).getD k 0
        = x * ys.getD k 0 + (((0 : R) :: polyMul xs ys)).getD k 0 := by
      rw [polyMul, polyAdd_getD, mapMulLeft_getD]
    cases k with
    | zero => simpa using base
    | succ k =>
      rw [base, List.getD_cons_succ, ih k]
      symm
      rw [Finset.sum_range_succ']
      simp only [Nat.succ_sub_succ, List.getD_cons_succ, List.getD_cons_zero,
        Nat.sub_zero]
      ring

theorem rangeMap_getD {R : Type} (m : ℕ) (f : ℕ → R) (k : ℕ) (d : R) :
    ((List.range m).map f).getD k d = if k < m then f k else d := by
  induction m generalizing f k with
  | zero => simp
  | succ m ih =>
    rw [List.range_succ_eq_map, List.map_cons, List.map_map]
    cases k with
    | zero => simp
    | succ k =>
      rw [List.getD_cons_succ, ih (f ∘ Nat.succ) k]
      simp [Nat.succ_lt_succ_iff]

theorem list_ext_getD {R : Type} (d : R) :
    ∀ xs ys : List R, xs.length = ys.length →
      (∀ k, xs.getD k d = ys.getD k d) → xs = ys := by
  intro xs
  induction xs with
  | nil => intro ys h _; cases ys with
    | nil => rfl
    | cons y ys => simp at h
  | cons x xs ih =>
    intro ys h hp
    cases ys with
    | nil => simp at h
    | cons y ys =>
      have h0 := hp 0
      simp only [List.getD_cons_zero] at h0
      have ht : xs = ys := by
        refine ih ys ?_ (fun k => ?_)
        · simpa using h
        · simpa using hp (k + 1)
      rw [h0, ht]

/-! ### Length lemmas -/

theorem polyAdd_length {R : Type} [CommRing R] (xs ys : List R) :
    (polyAdd xs ys).length = max xs.length ys.length := by
  induction xs generalizing ys with
  | nil => simp [polyAdd]
  | cons x xs ih =>
    cases ys with
    | nil => simp [polyAdd]
    | cons y ys => simp [polyAdd, ih ys, Nat.succ_max_succ]

theorem polySub_length {R : Type} [CommRing R] (xs ys : List R) :
    (polySub xs ys).length = max xs.length ys.length := by
  induction xs generalizing ys with
  | nil => simp [polySub]
  | cons x xs ih =>
    cases ys with
    | nil => simp [polySub]
    | cons y ys => simp [polySub, ih ys, Nat.succ_max_succ]

theorem polyMul_length {R : Type} [CommRing R] :
    ∀ xs ys : List R, xs ≠ [] → ys ≠ [] →
      (polyMul xs ys).length = xs.length + ys.length - 1 := by
  intro xs
  induction xs with
  | nil => intro ys h _; exact absurd rfl h
  | cons x xs ih =>
    intro ys _ hy
    have hyl : 1 ≤ ys.length := by
      cases ys with
      | nil => exact absurd rfl hy
      | cons _ _ => simp
    cases xs with
    | nil =>
      simp only [polyMul, polyAdd_length, List.length_map, List.length_cons,
        List.length_nil]
      omega
    | cons x2 xs2 =>
      have ihr := ih ys (by simp) hy
      rw [polyMul, polyAdd_length, List.length_map, List.length_cons, ihr]
      simp only [List.length_cons]
      omega

theorem rootQuotient_length {R : Type} [CommRing R] (r : R) (v : List R) :
    (rootQuotient r v).length = v.length - 1 := by
  simp [rootQuotient]

theorem limbsOf_length (n k : ℕ) : (limbsOf n k).length = k := by
  induction k generalizing n with
  | zero => rfl
  | succ k ih => simp [limbsOf, ih]

theorem intLimbs_length (n k : ℕ) : (intLimbs n k).length = k := by
  rw [intLimbs, List.length_map, limbsOf_length]

/-! ### Evaluation lemmas -/

theorem polyEval_polyAdd {R : Type} [CommRing R] (xs ys : List R) (r : R) :
    polyEval (polyAdd xs ys) r = polyEval xs r + polyEval ys r := by
  induction xs generalizing ys with
  | nil => simp [polyAdd, polyEval]
  | cons x xs ih =>
    cases ys with
    | nil => simp [polyAdd, polyEval]
    | cons y ys =>
      simp only [polyAdd, polyEval, ih ys]
      ring

theorem polyEval_mapNeg {R : Type} [CommRing R] (ys : List R) (r : R) :
    polyEval (ys.map (fun y => -y)) r = -polyEval ys r := by
  induction ys with
  | nil => simp [polyEval]
  | cons y ys ih =>
    simp only [List.map_cons, polyEval, ih]
    ring

theorem polyEval_polySub {R : Type} [CommRing R] (xs ys : List R) (r : R) :
    polyEval (polySub xs ys) r = polyEval xs r - polyEval ys r := by
  induction xs generalizing ys with
  | nil => simp [polySub, polyEval, polyEval_mapNeg]
  | cons x xs ih =>
    cases ys with
    | nil => simp [polySub, polyEval]
    | cons y ys =>
      simp only [polySub, polyEval, ih ys]
      ring

theorem polyEval_mapMulLeft {R : Type} [CommRing R] (x : R) (ys : List R) (r : R) :
    polyEval (ys.map (fun y => x * y)) r = x * polyEval ys r := by
  induction ys with
  | nil => simp [polyEval]
  | cons y ys ih =>
    simp only [List.map_cons, polyEval, ih]
    ring

theorem polyEval_polyMul {R : Type} [CommRing R] (xs ys : List R) (r : R) :
    polyEval (polyMul xs ys) r = polyEval xs r * polyEval ys r := by
  induction xs with
  | nil => simp [polyMul, polyEval]
  | cons x xs ih =>
    simp only [polyMul, polyEval_polyAdd, polyEval_mapMulLeft, polyEval, ih]
    ring

theorem polyEval_dropSucc {R : Type} [CommRing R] (v : List R) (r : R) :
    ∀ k : ℕ, polyEval (v.drop k) r = v.getD k 0 + r * polyEval (v.drop (k + 1)) r := by
  induction v with
  | nil => intro k; simp [polyEval]
  | cons x xs ih =>
    intro k
    cases k with
    | zero => simp [polyEval]
    | succ k => simpa using ih k

theorem polyEval_split {R : Type} [CommRing R] (v : List R) (r : R) (k : ℕ) :
    polyEval v r =
      (∑ j ∈ Finset.range k, v.getD j 0 * r ^ j) + r ^ k * polyEval (v.drop k) r := by
  induction k with
  | zero => simp
  | succ k ih =>
    rw [ih, polyEval_dropSucc v r k, Finset.sum_range_succ]
    ring

theorem rootQuotient_getD {R : Type} [CommRing R] (r : R) (v : List R) (k : ℕ) :
    (rootQuotient r v).getD k 0 = polyEval (v.drop (k + 1)) r := by
  rw [rootQuotient, rangeMap_getD]
  by_cases h : k < v.length - 1
  · simp [h]
  · have hd : v.length ≤ k + 1 := by omega
    rw [if_neg h, List.drop_eq_nil_of_le hd]
    simp [polyEval]

theorem mulRootMonomial_getD {R : Type} [CommRing R] (a : R) :
    ∀ (q : List R) (k : ℕ),
      (polyMul q [a, 1]).getD 0 0 = q.getD 0 0 * a ∧
      (polyMul q [a, 1]).getD (k + 1) 0 = q.getD (k + 1) 0 * a + q.getD k 0 := by
  intro q
  induction q with
  | nil => intro k; simp [polyMul]
  | cons x q ih =>
    intro k
    constructor
    · simp only [polyMul, polyAdd_getD, List.map_cons, List.map_nil]
      simp
    · cases k with
      | zero =>
        have h0 := (ih 0).1
        rw [polyMul, polyAdd_getD]
        simp only [List.map_cons, List.map_nil, List.getD_cons_succ,
          List.getD_cons_zero]
        rw [h0]
        ring
      | succ k =>
        have hs := (ih k).2
        rw [polyMul, polyAdd_getD]
        have h2 : (([a, 1].map (fun y => x * y) : List R)).getD (k + 1 + 1) 0 = 0 := by
          simp [List.getD]
        rw [h2]
        simp only [List.getD_cons_succ]
        rw [hs]
        ring

theorem rootQuotient_mul_getD {R : Type} [CommRing R] (r : R) (v : List R) (k : ℕ) :
    (polyMul (rootQuotient r v) [-r, 1]).getD k 0 =
      v.getD k 0 - (if k = 0 then polyEval v r else 0) := by
  cases k with
  | zero =>
    have h0 := (mulRootMonomial_getD (-r) (rootQuotient r v) 0).1
    rw [h0, rootQuotient_getD, if_pos rfl]
    have he := polyEval_dropSucc v r 0
    rw [List.drop_zero] at he
    rw [he]
    ring
  | succ k =>
    have hs := (mulRootMonomial_getD (-r) (rootQuotient r v) k).2
    rw [hs, rootQuotient_getD, rootQuotient_getD]
    have he := polyEval_dropSucc v r (k + 1)
    rw [he]
    simp only [Nat.succ_ne_zero, if_neg, if_false]
    ring

/-! ### Limb decomposition lemmas -/

theorem limbsOf_lt (n k : ℕ) : ∀ x ∈ limbsOf n k, x < LIMB := by
  induction k generalizing n with
  | zero => intro x hx; simp [limbsOf] at hx
  | succ k ih =>
    intro x hx
    rw [limbsOf] at hx
    rcases List.mem_cons.mp hx with h | h
    · subst h
      exact Nat.mod_lt _ (by simp [LIMB])
    · exact ih (n / LIMB) x h

theorem valLimbs_lt (l : List ℕ) (h : ∀ x ∈ l, x < LIMB) :
    valLimbs l < LIMB ^ l.length := by
  induction l with
  | nil => simp [valLimbs]
  | cons x xs ih =>
    have hx : x < LIMB := h x (by simp)
    have hxs : valLimbs xs < LIMB ^ xs.length := ih (fun y hy => h y (by simp [hy]))
    rw [valLimbs, List.length_cons, pow_succ]
    have hstep : x + LIMB * valLimbs xs + 1 ≤ LIMB ^ xs.length * LIMB := by
      calc x + LIMB * valLimbs xs + 1
          ≤ LIMB + LIMB * valLimbs xs := by omega
        _ = LIMB * (valLimbs xs + 1) := by ring
        _ ≤ LIMB * LIMB ^ xs.length := Nat.mul_le_mul_left _ (by omega)
        _ = LIMB ^ xs.length * LIMB := Nat.mul_comm _ _
    omega

theorem limbsOf_valLimbs (l : List ℕ) (h : ∀ x ∈ l, x < LIMB) :
    limbsOf (valLimbs l) l.length = l := by
  induction l with
  | nil => rfl
  | cons x xs ih =>
    have hx : x < LIMB := h x (by simp)
    rw [valLimbs, List.length_cons, limbsOf]
    have hmod : (x + LIMB * valLimbs xs) % LIMB = x := by
      rw [Nat.add_mul_mod_self_left, Nat.mod_eq_of_lt hx]
    have hdiv : (x + LIMB * valLimbs xs) / LIMB = valLimbs xs := by
      rw [Nat.add_mul_div_left _ _ (by simp [LIMB] : 0 < LIMB),
        Nat.div_eq_of_lt hx, Nat.zero_add]
    rw [hmod, hdiv, ih (fun y hy => h y (by simp [hy]))]

theorem natMod_base_split (x k : ℕ) :
    x % LIMB ^ (k + 1) = x % LIMB + LIMB * (x / LIMB % LIMB ^ k) := by
  have h1 : LIMB ^ (k + 1) = LIMB * LIMB ^ k := by
    rw [pow_succ, Nat.mul_comm]
  rw [h1]
  conv_lhs => rw [← Nat.div_add_mod (x % (LIMB * LIMB ^ k)) LIMB]
  rw [Nat.mod_mul_right_div_self, Nat.mod_mod_of_dvd x (dvd_mul_right LIMB (LIMB ^ k))]
  omega

theorem intLimbs_eval (x k : ℕ) :
    polyEval (intLimbs x k) ((LIMB : ℕ) : ℤ) = ((x % LIMB ^ k : ℕ) : ℤ) := by
  induction k generalizing x with
  | zero => simp [intLimbs, limbsOf, polyEval]
  | succ k ih =>
    rw [intLimbs, limbsOf, List.map_cons, polyEval]
    have ihx := ih (x / LIMB)
    rw [intLimbs] at ihx
    rw [ihx, natMod_base_split x k]
    push_cast
    ring

theorem decodeLimbs_intLimbs (x k : ℕ) (h : x < LIMB ^ k) :
    decodeLimbs (intLimbs x k) = (x : ℤ) := by
  rw [decodeLimbs, intLimbs_eval, Nat.mod_eq_of_lt h]

theorem intLimbs_mem_bounds (n k : ℕ) :
    ∀ x ∈ intLimbs n k, 0 ≤ x ∧ x ≤ ((LIMB : ℕ) : ℤ) - 1 := by
  intro x hx
  rw [intLimbs] at hx
  rcases List.mem_map.mp hx with ⟨d, hd, rfl⟩
  have hlt := limbsOf_lt n k d hd
  have h1 : (d : ℤ) < ((LIMB : ℕ) : ℤ) := by exact_mod_cast hlt
  omega

theorem intLimbs_valLimbs_map (l : List ℕ) (h : ∀ x ∈ l, x < LIMB) :
    intLimbs (valLimbs l) l.length = l.map (fun d => (Nat.cast d : ℤ)) := by
  rw [intLimbs, limbsOf_valLimbs l h]

/-! ### Bounds on the witness quotient coefficients -/

theorem getD_bounds (xs : List ℤ) (lo hi : ℤ) (h : ∀ x ∈ xs, lo ≤ x ∧ x ≤ hi)
    (hlo : lo ≤ 0) (hhi : 0 ≤ hi) (k : ℕ) :
    lo ≤ xs.getD k 0 ∧ xs.getD k 0 ≤ hi := by
  induction xs generalizing k with
  | nil => simp [hlo, hhi]
  | cons x xs ih =>
    cases k with
    | zero => simpa using h x (by simp)
    | succ k =>
      rw [List.getD_cons_succ]
      exact ih (fun y hy => h y (by simp [hy])) k

theorem sum_getD_le (xs : List ℤ) (b : ℤ) (h : ∀ x ∈ xs, 0 ≤ x ∧ x ≤ b)
    (hb : 0 ≤ b) (m : ℕ) :
    ∑ i ∈ Finset.range m, xs.getD i 0 ≤ (xs.length : ℤ) * b := by
  induction xs generalizing m with
  | nil =>
    simp only [List.getD_nil, Finset.sum_const_zero, List.length_nil]
    simp
  | cons x xs ih =>
    cases m with
    | zero =>
      simp only [Finset.range_zero, Finset.sum_empty]
      positivity
    | succ m =>
      rw [Finset.sum_range_succ']
      simp only [List.getD_cons_succ, List.getD_cons_zero, List.length_cons]
      have h1 := ih (fun y hy => h y (by simp [hy])) m
      have h2 := (h x (by simp)).2
      push_cast
      linarith

theorem polyMul_getD_bounds (xs ys : List ℤ) (bx bys : ℤ)
    (hx : ∀ x ∈ xs, 0 ≤ x ∧ x ≤ bx) (hy : ∀ y ∈ ys, 0 ≤ y ∧ y ≤ bys)
    (hbx : 0 ≤ bx) (hby : 0 ≤ bys) (k : ℕ) :
    0 ≤ (polyMul xs ys).getD k 0 ∧
      (polyMul xs ys).getD k 0 ≤ (xs.length : ℤ) * bx * bys := by
  rw [polyMul_getD]
  constructor
  · refine Finset.sum_nonneg (fun i _ => ?_)
    exact mul_nonneg (getD_bounds xs 0 bx hx le_rfl hbx i).1
      (getD_bounds ys 0 bys hy le_rfl hby (k - i)).1
  · calc ∑ i ∈ Finset.range (k + 1), xs.getD i 0 * ys.getD (k - i) 0
        ≤ ∑ i ∈ Finset.range (k + 1), xs.getD i 0 * bys := by
          refine Finset.sum_le_sum (fun i _ => ?_)
          exact mul_le_mul_of_nonneg_left (getD_bounds ys 0 bys hy le_rfl hby (k - i)).2
            (getD_bounds xs 0 bx hx le_rfl hbx i).1
      _ = (∑ i ∈ Finset.range (k + 1), xs.getD i 0) * bys := by
          rw [Finset.sum_mul]
      _ ≤ (xs.length : ℤ) * bx * bys := by
          exact mul_le_mul_of_nonneg_right (sum_getD_le xs bx hx hbx (k + 1)) hby

theorem traceVanishing_getD_bound (P : FieldParams) (c : List ℕ) (a : ℕ) (j : ℕ) :
    |(traceVanishing P c a).getD j 0| ≤
      (((LIMB : ℕ) : ℤ) - 1) * ((P.nbLimbs : ℤ) * (((LIMB : ℕ) : ℤ) - 1) + 1) := by
  have hL : (0:ℤ) ≤ ((LIMB : ℕ) : ℤ) - 1 := by
    norm_num [LIMB]
  rw [traceVanishing, polySub_getD, polySub_getD]
  have hA := polyMul_getD_bounds (intLimbs a P.nbLimbs) (intLimbs (valLimbs c) P.nbLimbs)
    (((LIMB : ℕ) : ℤ) - 1) (((LIMB : ℕ) : ℤ) - 1)
    (intLimbs_mem_bounds _ _) (intLimbs_mem_bounds _ _) hL hL j
  have hC := polyMul_getD_bounds (intLimbs (mulCarry P c a) P.nbLimbs)
    (intLimbs P.modulus P.nbLimbs) (((LIMB : ℕ) : ℤ) - 1) (((LIMB : ℕ) : ℤ) - 1)
    (intLimbs_mem_bounds _ _) (intLimbs_mem_bounds _ _) hL hL j
  have hB := getD_bounds (intLimbs (mulResult P c a) P.nbLimbs) 0 (((LIMB : ℕ) : ℤ) - 1)
    (intLimbs_mem_bounds _ _) le_rfl hL j
  rw [intLimbs_length] at hA hC
  rw [abs_le]
  constructor <;> nlinarith [hA.1, hA.2, hB.1, hB.2, hC.1, hC.2]

theorem rootQuotient_bound (v : List ℤ) (r M : ℤ) (hr : 2 ≤ r) (hM : 1 ≤ M)
    (hv : ∀ j : ℕ, |v.getD j 0| ≤ M) (h0 : polyEval v r = 0) :
    ∀ q ∈ rootQuotient r v, (r - 1) * |q| ≤ M - 1 := by
  intro q hq
  rw [rootQuotient] at hq
  rcases List.mem_map.mp hq with ⟨i, hi, rfl⟩
  set k := i + 1 with hk
  have hsplit := polyEval_split v r k
  rw [h0] at hsplit
  have hqe : r ^ k * polyEval (v.drop k) r
      = -(∑ j ∈ Finset.range k, v.getD j 0 * r ^ j) := by linarith
  set E := |polyEval (v.drop k) r| with hE
  set S := ∑ j ∈ Finset.range k, r ^ j with hS
  have habs : |∑ j ∈ Finset.range k, v.getD j 0 * r ^ j| ≤ M * S := by
    calc |∑ j ∈ Finset.range k, v.getD j 0 * r ^ j|
        ≤ ∑ j ∈ Finset.range k, |v.getD j 0 * r ^ j| := Finset.abs_sum_le_sum_abs _ _
      _ ≤ ∑ j ∈ Finset.range k, M * r ^ j := by
          refine Finset.sum_le_sum (fun j _ => ?_)
          rw [abs_mul, abs_pow, abs_of_nonneg (by linarith : (0:ℤ) ≤ r)]
          exact mul_le_mul_of_nonneg_right (hv j) (pow_nonneg (by linarith) j)
      _ = M * S := (Finset.mul_sum _ _ _).symm
  have hgeom : S * (r - 1) = r ^ k - 1 := geom_sum_mul r k
  have hrp : (0:ℤ) < r ^ k := pow_pos (by linarith) k
  have e1 : |r ^ k * polyEval (v.drop k) r| = r ^ k * E := by
    rw [abs_mul, abs_pow, abs_of_nonneg (by linarith : (0:ℤ) ≤ r)]
  have e2 : r ^ k * E ≤ M * S := by
    rw [← e1, hqe, abs_neg]
    exact habs
  by_contra hcon
  push_neg at hcon
  have hM2 : M ≤ (r - 1) * E := by linarith [Int.add_one_le_iff.mpr hcon]
  have c1 : M * r ^ k ≤ (r - 1) * E * r ^ k :=
    mul_le_mul_of_nonneg_right hM2 (le_of_lt hrp)
  have c2 : (r - 1) * E * r ^ k = (r - 1) * (r ^ k * E) := by ring
  have c3 : (r - 1) * (r ^ k * E) ≤ (r - 1) * (M * S) :=
    mul_le_mul_of_nonneg_left e2 (by linarith)
  have c4 : (r - 1) * (M * S) = M * (S * (r - 1)) := by ring
  have c5 : M * (S * (r - 1)) = M * (r ^ k - 1) := by rw [hgeom]
  have c6 : M * (r ^ k - 1) = M * r ^ k - M := by ring
  linarith

/-! ### Witness reconstruction -/

theorem witness_reconstruct (l : List ℤ) (off : ℤ)
    (h : ∀ q ∈ l, 0 ≤ q + off ∧ q + off < 2 ^ 32) :
    (List.zipWith (fun x y => x + y * ((LIMB : ℕ) : ℤ))
        ((l.map (fun q => (q + off) % (2 ^ 32 : ℤ))).map (fun x => x % ((LIMB : ℕ) : ℤ)))
        ((l.map (fun q => (q + off) % (2 ^ 32 : ℤ))).map (fun x => x / ((LIMB : ℕ) : ℤ)))).map
      (fun x => x - off) = l := by
  induction l with
  | nil => simp
  | cons q l ih =>
    simp only [List.map_cons, List.zipWith_cons_cons]
    rw [ih (fun y hy => h y (by simp [hy]))]
    have hq := h q (by simp)
    have hmod : (q + off) % (2 ^ 32 : ℤ) = q + off := Int.emod_eq_of_lt hq.1 hq.2
    rw [hmod]
    have hhead : (q + off) % ((LIMB : ℕ) : ℤ)
        + (q + off) / ((LIMB : ℕ) : ℤ) * ((LIMB : ℕ) : ℤ) - off = q := by
      rw [Int.emod_add_ediv' (q + off) (((LIMB : ℕ) : ℤ))]
      ring
    rw [hhead]

/-! ### Row constraints vanish on written rows -/

theorem intLimbs_valLimbs_of_len (l : List ℕ) (k : ℕ) (h : ∀ x ∈ l, x < LIMB)
    (hlen : l.length = k) :
    intLimbs (valLimbs l) k = l.map (fun d => (Nat.cast d : ℤ)) := by
  subst hlen
  exact intLimbs_valLimbs_map l h

theorem cR_eq (P : FieldParams) (c : List ℕ) (hcb : ∀ x ∈ c, x < LIMB)
    (hcl : P.nbLimbs ≤ c.length) (hcv : valLimbs c = valLimbs (c.take P.nbLimbs)) :
    (c.map (fun x => (Nat.cast x : ℤ))).take P.nbLimbs
      = intLimbs (valLimbs c) P.nbLimbs := by
  rw [hcv]
  have hlen : (c.take P.nbLimbs).length = P.nbLimbs := by
    rw [List.length_take]; omega
  rw [intLimbs_valLimbs_of_len (c.take P.nbLimbs) P.nbLimbs
      (fun x hx => hcb x (List.take_subset _ _ hx)) hlen]
  exact (List.map_take _ _ _).symm

theorem traceVanishing_eval (P : FieldParams) (c : List ℕ) (a : ℕ)
    (hp : 0 < P.modulus) (hpn : P.modulus < LIMB ^ P.nbLimbs) (ha : a < P.modulus)
    (hcvlt : valLimbs c < LIMB ^ P.nbLimbs) :
    polyEval (traceVanishing P c a) ((LIMB : ℕ) : ℤ) = 0 := by
  have hres : mulResult P c a < LIMB ^ P.nbLimbs :=
    lt_trans (Nat.mod_lt _ hp) hpn
  have hcar_eq : mulCarry P c a = a * valLimbs c / P.modulus := by
    rw [mulCarry, mulResult]
    have hd := Nat.div_add_mod (a * valLimbs c) P.modulus
    have hsub : a * valLimbs c - a * valLimbs c % P.modulus
        = P.modulus * (a * valLimbs c / P.modulus) := by omega
    rw [hsub, Nat.mul_div_cancel_left _ hp]
  have hcar : mulCarry P c a < LIMB ^ P.nbLimbs := by
    rw [hcar_eq]
    have h1 : a * valLimbs c ≤ P.modulus * valLimbs c :=
      Nat.mul_le_mul_right _ (le_of_lt ha)
    have h2 : a * valLimbs c / P.modulus ≤ P.modulus * valLimbs c / P.modulus :=
      Nat.div_le_div_right h1
    rw [Nat.mul_div_cancel_left _ hp] at h2
    exact lt_of_le_of_lt h2 hcvlt
  have hiden : mulResult P c a + P.modulus * mulCarry P c a = a * valLimbs c := by
    rw [hcar_eq, mulResult]
    exact Nat.mod_add_div _ _
  have hpa : a < LIMB ^ P.nbLimbs := lt_trans ha hpn
  rw [traceVanishing, polyEval_polySub, polyEval_polySub, polyEval_polyMul,
    polyEval_polyMul, intLimbs_eval, intLimbs_eval, intLimbs_eval, intLimbs_eval,
    intLimbs_eval, Nat.mod_eq_of_lt hpa, Nat.mod_eq_of_lt hcvlt,
    Nat.mod_eq_of_lt hres, Nat.mod_eq_of_lt hcar, Nat.mod_eq_of_lt hpn]
  have hc : ((mulResult P c a : ℤ) + (P.modulus : ℤ) * (mulCarry P c a : ℤ))
      = (a : ℤ) * (valLimbs c : ℤ) := by exact_mod_cast hiden
  linear_combination -hc

theorem rootQuotient_traceVanishing_bound (P : FieldParams) (c : List ℕ) (a : ℕ)
    (h0 : polyEval (traceVanishing P c a) ((LIMB : ℕ) : ℤ) = 0) :
    ∀ q ∈ rootQuotient ((LIMB : ℕ) : ℤ) (traceVanishing P c a),
      |q| ≤ (P.nbLimbs : ℤ) * (((LIMB : ℕ) : ℤ) - 1) := by
  intro q hq
  have hLval : ((LIMB : ℕ) : ℤ) = 65536 := by norm_num [LIMB]
  have hn : (0:ℤ) ≤ (P.nbLimbs : ℤ) := Int.natCast_nonneg _
  have hM1 : 1 ≤ (((LIMB : ℕ) : ℤ) - 1) * ((P.nbLimbs : ℤ) * (((LIMB : ℕ) : ℤ) - 1) + 1) := by
    rw [hLval]
    nlinarith
  have hb := rootQuotient_bound (traceVanishing P c a) ((LIMB : ℕ) : ℤ)
    ((((LIMB : ℕ) : ℤ) - 1) * ((P.nbLimbs : ℤ) * (((LIMB : ℕ) : ℤ) - 1) + 1))
    (by rw [hLval]; norm_num) hM1 (fun j => traceVanishing_getD_bound P c a j) h0 q hq
  have hlt : (((LIMB : ℕ) : ℤ) - 1) * |q|
      < (((LIMB : ℕ) : ℤ) - 1) * ((P.nbLimbs : ℤ) * (((LIMB : ℕ) : ℤ) - 1) + 1) := by
    linarith
  have h2 : |q| < (P.nbLimbs : ℤ) * (((LIMB : ℕ) : ℤ) - 1) + 1 :=
    lt_of_mul_lt_mul_left hlt (by rw [hLval]; norm_num)
  exact Int.lt_add_one_iff.mp h2

theorem rootQuotient_offset_bounds (P : FieldParams) (c : List ℕ) (a : ℕ)
    (h0 : polyEval (traceVanishing P c a) ((LIMB : ℕ) : ℤ) = 0)
    (hoff1 : P.nbLimbs * (LIMB - 1) ≤ P.witnessOffset)
    (hoff2 : P.witnessOffset + P.nbLimbs * (LIMB - 1) < 2 ^ 32) :
    ∀ q ∈ rootQuotient ((LIMB : ℕ) : ℤ) (traceVanishing P c a),
      0 ≤ q + (P.witnessOffset : ℤ) ∧ q + (P.witnessOffset : ℤ) < 2 ^ 32 := by
  intro q hq
  have hb := rootQuotient_traceVanishing_bound P c a h0 q hq
  have habs := abs_le.mp hb
  have hcast : ((P.nbLimbs * (LIMB - 1) : ℕ) : ℤ)
      = (P.nbLimbs : ℤ) * (((LIMB : ℕ) : ℤ) - 1) := by
    rw [Nat.cast_mul, Nat.cast_sub (by norm_num [LIMB] : 1 ≤ LIMB), Nat.cast_one]
  have h1 : ((P.nbLimbs * (LIMB - 1) : ℕ) : ℤ) ≤ (P.witnessOffset : ℤ) := by
    exact_mod_cast hoff1
  have h2 : (P.witnessOffset : ℤ) + ((P.nbLimbs * (LIMB - 1) : ℕ) : ℤ) < 2 ^ 32 := by
    exact_mod_cast hoff2
  rw [hcast] at h1 h2
  constructor
  · linarith [habs.1]
  · linarith [habs.2]

theorem traceRow_resultLimbs (P : FieldParams) (c : List ℕ) (a : ℕ) :
    (traceRow P c a).resultLimbs = intLimbs (mulResult P c a) P.nbLimbs := rfl

theorem traceRow_carryLimbs (P : FieldParams) (c : List ℕ) (a : ℕ) :
    (traceRow P c a).carryLimbs = intLimbs (mulCarry P c a) P.nbLimbs := rfl

theorem traceRow_result (P : FieldParams) (c : List ℕ) (a : ℕ) :
    (traceRow P c a).result = mulResult P c a := rfl

theorem traceRow_wLow (P : FieldParams) (c : List ℕ) (a : ℕ) :
    (traceRow P c a).wLow
      = ((rootQuotient ((LIMB : ℕ) : ℤ) (traceVanishing P c a)).map
          (fun q => (q + (P.witnessOffset : ℤ)) % (2 ^ 32 : ℤ))).map
        (fun x => x % ((LIMB : ℕ) : ℤ)) := rfl

theorem traceRow_wHigh (P : FieldParams) (c : List ℕ) (a : ℕ) :
    (traceRow P c a).wHigh
      = ((rootQuotient ((LIMB : ℕ) : ℤ) (traceVanishing P c a)).map
          (fun q => (q + (P.witnessOffset : ℤ)) % (2 ^ 32 : ℤ))).map
        (fun x => x / ((LIMB : ℕ) : ℤ)) := rfl

theorem rowConstraints_vanish (P : FieldParams) (c : List ℕ) (a : ℕ)
    (hp : 0 < P.modulus) (hpn : P.modulus < LIMB ^ P.nbLimbs) (ha : a < P.modulus)
    (hcb : ∀ x ∈ c, x < LIMB) (hcl : P.nbLimbs ≤ c.length)
    (hcv : valLimbs c = valLimbs (c.take P.nbLimbs))
    (hoff1 : P.nbLimbs * (LIMB - 1) ≤ P.witnessOffset)
    (hoff2 : P.witnessOffset + P.nbLimbs * (LIMB - 1) < 2 ^ 32) :
    ∀ x ∈ rowConstraints P c a, x = 0 := by
  have hcvlt : valLimbs c < LIMB ^ P.nbLimbs := by
    rw [hcv]
    have h1 := valLimbs_lt (c.take P.nbLimbs) (fun y hy => hcb y (List.take_subset _ _ hy))
    refine lt_of_lt_of_le h1 (Nat.pow_le_pow_right (by norm_num [LIMB]) ?_)
    rw [List.length_take]
    omega
  have h0 : polyEval (traceVanishing P c a) ((LIMB : ℕ) : ℤ) = 0 :=
    traceVanishing_eval P c a hp hpn ha hcvlt
  have hoffb := rootQuotient_offset_bounds P c a h0 hoff1 hoff2
  have hcR := cR_eq P c hcb hcl hcv
  have hfold : polySub
      (polySub (polyMul (intLimbs a P.nbLimbs)
          ((c.map (fun x => (Nat.cast x : ℤ))).take P.nbLimbs))
        (intLimbs (mulResult P c a) P.nbLimbs))
      (polyMul (intLimbs (mulCarry P c a) P.nbLimbs) (intLimbs P.modulus P.nbLimbs))
      = traceVanishing P c a := by
    rw [hcR]; rfl
  have hlist : rowConstraints P c a
      = (List.range (polySub
            (polySub (polyMul (intLimbs a P.nbLimbs)
                ((c.map (fun x => (Nat.cast x : ℤ))).take P.nbLimbs))
              (intLimbs (mulResult P c a) P.nbLimbs))
            (polyMul (intLimbs (mulCarry P c a) P.nbLimbs)
              (intLimbs P.modulus P.nbLimbs))).length).map
          (fun i => (polySub
              (polySub (polyMul (intLimbs a P.nbLimbs)
                  ((c.map (fun x => (Nat.cast x : ℤ))).take P.nbLimbs))
                (intLimbs (mulResult P c a) P.nbLimbs))
              (polyMul (intLimbs (mulCarry P c a) P.nbLimbs)
                (intLimbs P.modulus P.nbLimbs))).getD i 0
            - (polyMul ((List.zipWith (fun u v => u + v * ((LIMB : ℕ) : ℤ))
                  (((rootQuotient ((LIMB : ℕ) : ℤ) (traceVanishing P c a)).map
                      (fun q => (q + (P.witnessOffset : ℤ)) % (2 ^ 32 : ℤ))).map
                    (fun u => u % ((LIMB : ℕ) : ℤ)))
                  (((rootQuotient ((LIMB : ℕ) : ℤ) (traceVanishing P c a)).map
                      (fun q => (q + (P.witnessOffset : ℤ)) % (2 ^ 32 : ℤ))).map
                    (fun u => u / ((LIMB : ℕ) : ℤ)))).map
                (fun u => u - (P.witnessOffset : ℤ))) [-((LIMB : ℕ) : ℤ), 1]).getD i 0) := rfl
  rw [hfold] at hlist
  intro x hx
  rw [hlist] at hx
  rcases List.mem_map.mp hx with ⟨i, hi, rfl⟩
  rw [witness_reconstruct (rootQuotient ((LIMB : ℕ) : ℤ) (traceVanishing P c a))
      ((P.witnessOffset : ℤ)) hoffb]
  rw [rootQuotient_mul_getD]
  by_cases hz : i = 0
  · rw [if_pos hz, h0]
    ring
  · rw [if_neg hz]
    ring

/-! ### Agreement of the packed and gadget polynomial operations -/

theorem getD_of_le {R : Type} (l : List R) (d : R) (k : ℕ) (h : l.length ≤ k) :
    l.getD k d = d := by
  induction l generalizing k with
  | nil => simp
  | cons x xs ih =>
    cases k with
    | zero => simp at h
    | succ k =>
      rw [List.getD_cons_succ]
      exact ih k (by simpa using h)

theorem mapMulRight_getD {R : Type} [CommRing R] (x : R) (ys : List R) (k : ℕ) :
    (ys.map (fun y => y * x)).getD k 0 = ys.getD k 0 * x := by
  induction ys generalizing k with
  | nil => simp
  | cons y ys ih =>
    cases k with
    | zero => simp
    | succ k => simpa using ih k

theorem polyAdd_eq_gadgetAdd {R : Type} [CommRing R] (xs ys : List R) :
    polyAdd xs ys = gadgetAdd xs ys := by
  apply list_ext_getD 0
  · rw [polyAdd_length, gadgetAdd, List.length_map, List.length_range]
  · intro k
    rw [polyAdd_getD, gadgetAdd, rangeMap_getD]
    by_cases h : k < max xs.length ys.length
    · rw [if_pos h]
    · rw [if_neg h]
      push_neg at h
      rw [getD_of_le xs 0 k (le_trans (le_max_left _ _) h),
        getD_of_le ys 0 k (le_trans (le_max_right _ _) h)]
      simp

theorem polySub_eq_gadgetSub {R : Type} [CommRing R] (xs ys : List R) :
    polySub xs ys = gadgetSub xs ys := by
  apply list_ext_getD 0
  · rw [polySub_length, gadgetSub, List.length_map, List.length_range]
  · intro k
    rw [polySub_getD, gadgetSub, rangeMap_getD]
    by_cases h : k < max xs.length ys.length
    · rw [if_pos h]
    · rw [if_neg h]
      push_neg at h
      rw [getD_of_le xs 0 k (le_trans (le_max_left _ _) h),
        getD_of_le ys 0 k (le_trans (le_max_right _ _) h)]
      simp

theorem polyMul_eq_gadgetMul {R : Type} [CommRing R] (xs ys : List R)
    (hx : xs ≠ []) (hy : ys ≠ []) :
    polyMul xs ys = gadgetMul xs ys := by
  have hxl : 1 ≤ xs.length := List.length_pos.mpr hx
  have hyl : 1 ≤ ys.length := List.length_pos.mpr hy
  apply list_ext_getD 0
  · rw [polyMul_length xs ys hx hy, gadgetMul, List.length_map, List.length_range]
  · intro k
    rw [polyMul_getD, gadgetMul, rangeMap_getD]
    by_cases h : k < xs.length + ys.length - 1
    · rw [if_pos h]
    · rw [if_neg h]
      push_neg at h
      refine Finset.sum_eq_zero (fun i hi => ?_)
      have hik : i ≤ k := by
        have := Finset.mem_range.mp hi
        omega
      rcases lt_or_ge i xs.length with hixs | hixs
      · have hys : ys.length ≤ k - i := by omega
        rw [getD_of_le ys 0 _ hys, mul_zero]
      · rw [getD_of_le xs 0 _ hixs, zero_mul]

theorem zipWith_addmul_getD {R : Type} [CommRing R] (l : R) :
    ∀ wl wh : List R, wl.length = wh.length → ∀ k : ℕ,
      (List.zipWith (fun x y => x + y * l) wl wh).getD k 0
        = wl.getD k 0 + wh.getD k 0 * l := by
  intro wl
  induction wl with
  | nil =>
    intro wh h k
    cases wh with
    | nil => simp
    | cons y wh => simp at h
  | cons x wl ih =>
    intro wh h k
    cases wh with
    | nil => simp at h
    | cons y wh =>
      cases k with
      | zero => simp
      | succ k => simpa using ih wh (by simpa using h) k

theorem w_lists_eq {R : Type} [CommRing R] (wl wh : List R)
    (h : wl.length = wh.length) (l : R) :
    List.zipWith (fun x y => x + y * l) wl wh
      = gadgetAdd wl (wh.map (fun y => y * l)) := by
  apply list_ext_getD 0
  · rw [List.length_zipWith, gadgetAdd, List.length_map, List.length_range,
      List.length_map, h, min_self, max_self]
  · intro k
    rw [zipWith_addmul_getD l wl wh h k, gadgetAdd, rangeMap_getD]
    by_cases hk : k < max wl.length (wh.map (fun y => y * l)).length
    · rw [if_pos hk, mapMulRight_getD]
    · rw [if_neg hk]
      push_neg at hk
      rw [List.length_map] at hk
      rw [getD_of_le wl 0 k (le_trans (le_max_left _ _) hk),
        getD_of_le wh 0 k (le_trans (le_max_right _ _) hk)]
      simp

theorem rangeMap_sub_eq_polySub {R : Type} [CommRing R] (xs ys : List R)
    (h : ys.length ≤ xs.length) :
    (List.range xs.length).map (fun i => xs.getD i 0 - ys.getD i 0) = polySub xs ys := by
  apply list_ext_getD 0
  · rw [List.length_map, List.length_range, polySub_length]
    omega
  · intro k
    rw [rangeMap_getD, polySub_getD]
    by_cases hk : k < xs.length
    · rw [if_pos hk]
    · rw [if_neg hk]
      push_neg at hk
      rw [getD_of_le xs 0 k hk, getD_of_le ys 0 k (le_trans h hk)]
      simp

/-- C5: for every FpMulConst instruction layout (operand, result, carry
registers of NB_LIMBS limbs, witness arrays of NB_WITNESS_LIMBS limbs with
NB_WITNESS_LIMBS = 2 * NB_LIMBS - 2), and all register values in any
coefficient ring, the packed prover-side constraints and the recursive
circuit constraints denote the same residues, coefficient by coefficient. -/
theorem fpMulConst_packed_ext_agree :
    ∀ (R : Type) [CommRing R] (P : FieldParams)
      (aL resultL carryL wlowL whighL : List R) (c : List ℕ),
      aL.length = P.nbLimbs → resultL.length = P.nbLimbs →
      carryL.length = P.nbLimbs → wlowL.length = P.nbWitnessLimbs →
      whighL.length = P.nbWitnessLimbs → P.nbLimbs ≤ c.length →
      0 < P.nbWitnessLimbs → P.nbWitnessLimbs + 2 = 2 * P.nbLimbs →
      packedConstraints R P aL c resultL carryL wlowL whighL
        = extCircuitConstraints R P aL c resultL carryL wlowL whighL := by
  intro R instR P aL resultL carryL wlowL whighL c ha hres hcar hwl hwh hcl hw0 hwn
  have hcRlen : ((c.map (fun x => (Nat.cast x : R))).take P.nbLimbs).length = P.nbLimbs := by
    rw [List.length_take, List.length_map]
    omega
  have hpLlen : ((limbsOf P.modulus P.nbLimbs).map (fun x => (Nat.cast x : R))).length
      = P.nbLimbs := by
    rw [List.length_map, limbsOf_length]
  have hn0 : 0 < P.nbLimbs := by omega
  have hane : aL ≠ [] := List.length_pos.mp (by omega)
  have hresne : resultL ≠ [] := List.length_pos.mp (by omega)
  have hcarne : carryL ≠ [] := List.length_pos.mp (by omega)
  have hcRne : (c.map (fun x => (Nat.cast x : R))).take P.nbLimbs ≠ [] :=
    List.length_pos.mp (by omega)
  have hpLne : (limbsOf P.modulus P.nbLimbs).map (fun x => (Nat.cast x : R)) ≠ [] :=
    List.length_pos.mp (by omega)
  have hwtermlen : ((List.zipWith (fun x y => x + y * ((LIMB : R)))
      wlowL whighL).map (fun x => x - (P.witnessOffset : R))).length
        = P.nbWitnessLimbs := by
    rw [List.length_map, List.length_zipWith, hwl, hwh, min_self]
  have hwne : (List.zipWith (fun x y => x + y * ((LIMB : R)))
      wlowL whighL).map (fun x => x - (P.witnessOffset : R)) ≠ [] :=
    List.length_pos.mp (by omega)
  have hVlen : (polySub
      (polySub (polyMul aL ((c.map (fun x => (Nat.cast x : R))).take P.nbLimbs)) resultL)
      (polyMul carryL ((limbsOf P.modulus P.nbLimbs).map (fun x => (Nat.cast x : R))))).length
        = 2 * P.nbLimbs - 1 := by
    rw [polySub_length, polySub_length, polyMul_length aL _ hane hcRne,
      polyMul_length carryL _ hcarne hpLne, ha, hres, hcar, hcRlen, hpLlen]
    omega
  have hWTlen : (polyMul ((List.zipWith (fun x y => x + y * ((LIMB : R)))
      wlowL whighL).map (fun x => x - (P.witnessOffset : R)))
        [-(LIMB : R), 1]).length = P.nbWitnessLimbs + 1 := by
    rw [polyMul_length _ _ hwne (by simp), hwtermlen]
    simp
  have hext : extCircuitConstraints R P aL c resultL carryL wlowL whighL
      = polySub
          (polySub
            (polySub (polyMul aL ((c.map (fun x => (Nat.cast x : R))).take P.nbLimbs))
              resultL)
            (polyMul carryL ((limbsOf P.modulus P.nbLimbs).map (fun x => (Nat.cast x : R)))))
          (polyMul ((List.zipWith (fun x y => x + y * ((LIMB : R)))
              wlowL whighL).map (fun x => x - (P.witnessOffset : R)))
            [-(LIMB : R), 1]) := by
    simp only [extCircuitConstraints]
    rw [← polyMul_eq_gadgetMul aL _ hane hcRne,
      ← polySub_eq_gadgetSub (polyMul aL ((c.map (fun x => (Nat.cast x : R))).take P.nbLimbs))
        resultL,
      ← polyMul_eq_gadgetMul carryL _ hcarne hpLne,
      ← polySub_eq_gadgetSub
        (polySub (polyMul aL ((c.map (fun x => (Nat.cast x : R))).take P.nbLimbs)) resultL)
        (polyMul carryL ((limbsOf P.modulus P.nbLimbs).map (fun x => (Nat.cast x : R)))),
      ← w_lists_eq wlowL whighL (by rw [hwl, hwh]) ((LIMB : R)),
      ← polyMul_eq_gadgetMul _ [-(LIMB : R), 1] hwne (by simp),
      ← polySub_eq_gadgetSub]
  have hpacked : packedConstraints R P aL c resultL carryL wlowL whighL
      = (List.range (polySub
          (polySub (polyMul aL ((c.map (fun x => (Nat.cast x : R))).take P.nbLimbs)) resultL)
          (polyMul carryL
            ((limbsOf P.modulus P.nbLimbs).map (fun x => (Nat.cast x : R))))).length).map
          (fun i => (polySub
              (polySub (polyMul aL ((c.map (fun x => (Nat.cast x : R))).take P.nbLimbs))
                resultL)
              (polyMul carryL
                ((limbsOf P.modulus P.nbLimbs).map (fun x => (Nat.cast x : R))))).getD i 0
            - (polyMul ((List.zipWith (fun x y => x + y * ((LIMB : R)))
                  wlowL whighL).map (fun x => x - (P.witnessOffset : R)))
                [-(LIMB : R), 1]).getD i 0) := rfl
  rw [hpacked, hext]
  exact rangeMap_sub_eq_polySub _ _ (by omega)

/-! ### Claim theorems -/

/-- C1 counterexample: with the Fp25519 parameter set, operand a = 2^254 and
a constant whose limb 31 is set (so c = 2^496), the carry (a*c - result)/p
does not fit in NB_LIMBS limbs, and the carry register written by trace_row
does not decode back to it. -/
theorem fpMulConst_carry_register_truncates :
    decodeLimbs (traceRow Fp25519Param (List.replicate 31 0 ++ [1]) (2 ^ 254)).carryLimbs
      ≠ (((2 ^ 254 * valLimbs (List.replicate 31 0 ++ [1])
          - mulResult Fp25519Param (List.replicate 31 0 ++ [1]) (2 ^ 254))
            / Fp25519Param.modulus : ℕ) : ℤ) := by
  decide

/-- C1 amended: for a in [0, p) and every limb array c, the result register
decodes to (a*c) mod p and write_fpmul_const returns that value; the carry
register always decodes to the truncation ((a*c - result)/p) mod
2^(16*NB_LIMBS), and hence holds (a*c - result)/p exactly whenever that
carry fits in NB_LIMBS 16-bit limbs (it can fail to fit only when the limbs
of c past NB_LIMBS make the carry reach 2^(16*NB_LIMBS)). -/
theorem fpMulConst_trace_row_registers :
    ∀ (P : FieldParams) (c : List ℕ) (a : ℕ) (st : List (ℕ × List ℤ)) (rowIndex : ℕ),
      0 < P.modulus → P.modulus ≤ LIMB ^ P.nbLimbs → a < P.modulus →
      decodeLimbs (traceRow P c a).resultLimbs = ((a * valLimbs c % P.modulus : ℕ) : ℤ)
      ∧ writeFpmulConst P st rowIndex c a
          = some ((rowIndex, traceRowVec P c a) :: st, a * valLimbs c % P.modulus)
      ∧ decodeLimbs (traceRow P c a).carryLimbs
          = ((((a * valLimbs c - a * valLimbs c % P.modulus) / P.modulus)
              % LIMB ^ P.nbLimbs : ℕ) : ℤ)
      ∧ ((a * valLimbs c - a * valLimbs c % P.modulus) / P.modulus
            < LIMB ^ P.nbLimbs →
          decodeLimbs (traceRow P c a).carryLimbs
            = (((a * valLimbs c - a * valLimbs c % P.modulus) / P.modulus : ℕ) : ℤ)) := by
  intro P c a st rowIndex hp hpn ha
  refine ⟨?_, rfl, ?_, ?_⟩
  · have hres : mulResult P c a < LIMB ^ P.nbLimbs :=
      lt_of_lt_of_le (Nat.mod_lt (a * valLimbs c) hp) hpn
    rw [traceRow_resultLimbs, decodeLimbs_intLimbs (mulResult P c a) P.nbLimbs hres]
    rfl
  · rw [traceRow_carryLimbs, decodeLimbs, intLimbs_eval]
    rfl
  · intro hcar
    rw [traceRow_carryLimbs, decodeLimbs_intLimbs (mulCarry P c a) P.nbLimbs hcar]
    rfl

theorem fpMulConst_trace_row_registers_witness :
    (5 : ℕ) < Fp25519Param.modulus
    ∧ (decodeLimbs (traceRow Fp25519Param (3 :: List.replicate 31 0) 5).resultLimbs
        = ((5 * valLimbs (3 :: List.replicate 31 0) % Fp25519Param.modulus : ℕ) : ℤ)
      ∧ writeFpmulConst Fp25519Param [] 0 (3 :: List.replicate 31 0) 5
          = some ([(0, traceRowVec Fp25519Param (3 :: List.replicate 31 0) 5)],
              5 * valLimbs (3 :: List.replicate 31 0) % Fp25519Param.modulus)
      ∧ decodeLimbs (traceRow Fp25519Param (3 :: List.replicate 31 0) 5).carryLimbs
          = ((((5 * valLimbs (3 :: List.replicate 31 0)
              - 5 * valLimbs (3 :: List.replicate 31 0) % Fp25519Param.modulus)
                / Fp25519Param.modulus) % LIMB ^ Fp25519Param.nbLimbs : ℕ) : ℤ)
      ∧ ((5 * valLimbs (3 :: List.replicate 31 0)
            - 5 * valLimbs (3 :: List.replicate 31 0) % Fp25519Param.modulus)
              / Fp25519Param.modulus < LIMB ^ Fp25519Param.nbLimbs →
          decodeLimbs (traceRow Fp25519Param (3 :: List.replicate 31 0) 5).carryLimbs
            = (((5 * valLimbs (3 :: List.replicate 31 0)
                - 5 * valLimbs (3 :: List.replicate 31 0) % Fp25519Param.modulus)
                  / Fp25519Param.modulus : ℕ) : ℤ))) :=
  ⟨by decide,
    fpMulConst_trace_row_registers Fp25519Param (3 :: List.replicate 31 0) 5 [] 0
      (by decide) (by decide) (by decide)⟩

/-- C2: the packed constraint emitted at coefficient i equals V_i minus the
i-th coefficient of (witness_low + 2^16 witness_high - WITNESS_OFFSET)
multiplied by (X - 2^16), where V = A(X) C(X) - R(X) - Carry(X) P(X); and on
a row written by trace_row (operand below the modulus, 16-bit constant limbs
whose big-integer value is carried by the first NB_LIMBS limbs, witness
offset within its calibration) every emitted constraint evaluates to zero. -/
theorem fpMulConst_constraint_shape_and_vanish :
    (∀ (R : Type) [CommRing R] (P : FieldParams)
        (aL resultL carryL wlowL whighL : List R) (c : List ℕ) (i : ℕ),
        i < (polySub
            (polySub (polyMul aL ((c.map (fun x => (Nat.cast x : R))).take P.nbLimbs))
              resultL)
            (polyMul carryL
              ((limbsOf P.modulus P.nbLimbs).map (fun x => (Nat.cast x : R))))).length →
        (packedConstraints R P aL c resultL carryL wlowL whighL).getD i 0
          = (polySub
              (polySub (polyMul aL ((c.map (fun x => (Nat.cast x : R))).take P.nbLimbs))
                resultL)
              (polyMul carryL
                ((limbsOf P.modulus P.nbLimbs).map (fun x => (Nat.cast x : R))))).getD i 0
            - (polyMul ((List.zipWith (fun x y => x + y * (LIMB : R)) wlowL whighL).map
                  (fun x => x - (P.witnessOffset : R))) [-(LIMB : R), 1]).getD i 0)
    ∧ (∀ (P : FieldParams) (c : List ℕ) (a : ℕ),
        0 < P.modulus → P.modulus < LIMB ^ P.nbLimbs → a < P.modulus →
        (∀ x ∈ c, x < LIMB) → P.nbLimbs ≤ c.length →
        valLimbs c = valLimbs (c.take P.nbLimbs) →
        P.nbLimbs * (LIMB - 1) ≤ P.witnessOffset →
        P.witnessOffset + P.nbLimbs * (LIMB - 1) < 2 ^ 32 →
        ∀ x ∈ rowConstraints P c a, x = 0) := by
  constructor
  · intro R instR P aL resultL carryL wlowL whighL c i hi
    have hpacked : packedConstraints R P aL c resultL carryL wlowL whighL
        = (List.range (polySub
            (polySub (polyMul aL ((c.map (fun x => (Nat.cast x : R))).take P.nbLimbs))
              resultL)
            (polyMul carryL
              ((limbsOf P.modulus P.nbLimbs).map (fun x => (Nat.cast x : R))))).length).map
            (fun i => (polySub
                (polySub (polyMul aL ((c.map (fun x => (Nat.cast x : R))).take P.nbLimbs))
                  resultL)
                (polyMul carryL
                  ((limbsOf P.modulus P.nbLimbs).map (fun x => (Nat.cast x : R))))).getD i 0
              - (polyMul ((List.zipWith (fun x y => x + y * (LIMB : R)) wlowL whighL).map
                    (fun x => x - (P.witnessOffset : R))) [-(LIMB : R), 1]).getD i 0) := rfl
    rw [hpacked, rangeMap_getD, if_pos hi]
  · intro P c a hp hpn ha hcb hcl hcv ho1 ho2
    exact rowConstraints_vanish P c a hp hpn ha hcb hcl hcv ho1 ho2

theorem fpMulConst_constraint_shape_and_vanish_witness :
    (2 ^ 255 - 20 : ℕ) < Fp25519Param.modulus
    ∧ (∀ x ∈ rowConstraints Fp25519Param (2 :: List.replicate 31 0) (2 ^ 255 - 20), x = 0) :=
  ⟨by decide,
    fpMulConst_constraint_shape_and_vanish.2 Fp25519Param (2 :: List.replicate 31 0)
      (2 ^ 255 - 20) (by decide) (by decide) (by decide) (by decide) (by decide)
      (by decide) (by decide) (by decide)⟩

/-- C3 counterexample: with a = p - 1 and a constant array whose limb 16 is
set (c = 2^256), the debug-assert conditions of trace_row fail (the carry
exceeds p), yet write_fpmul_const still writes the row and returns without
an error. -/
theorem fpMulConst_no_error_on_carry_overflow :
    ¬ traceRowChecks Fp25519Param (List.replicate 16 0 ++ 1 :: List.replicate 15 0)
        (2 ^ 255 - 20)
    ∧ (writeFpmulConst Fp25519Param [] 0
        (List.replicate 16 0 ++ 1 :: List.replicate 15 0) (2 ^ 255 - 20)).isSome = true := by
  exact ⟨by decide, rfl⟩

/-- C3 amended: result < p and carry < p are debug_assert! conditions only.
The result check can never fail (result is a remainder mod p), and
write_fpmul_const never returns an error for these conditions: in a release
build the row is written unconditionally (in a debug build a failed
assertion panics instead of returning an error). -/
theorem fpMulConst_checks_are_debug_only :
    ∀ (P : FieldParams) (c : List ℕ) (a : ℕ) (st : List (ℕ × List ℤ)) (rowIndex : ℕ),
      0 < P.modulus →
      mulResult P c a < P.modulus ∧ (writeFpmulConst P st rowIndex c a).isSome = true := by
  intro P c a st rowIndex hp
  exact ⟨Nat.mod_lt _ hp, rfl⟩

theorem fpMulConst_checks_are_debug_only_witness :
    mulResult Fp25519Param (List.replicate 32 0) 11 < Fp25519Param.modulus
    ∧ (writeFpmulConst Fp25519Param [] 2 (List.replicate 32 0) 11).isSome = true :=
  fpMulConst_checks_are_debug_only Fp25519Param (List.replicate 32 0) 11 [] 2 (by decide)

/-- C4: a global byte-operation instruction written at any row other than 0
returns without writing: the trace writer is unchanged. -/
theorem byteOperation_global_skip :
    ∀ (inst : ByteOperationInstruction) (w : TraceWriter) (rowIndex : ℕ),
      inst.global = true → rowIndex ≠ 0 →
      inst.write w rowIndex = w := by
  intro inst w rowIndex hg hr
  simp [ByteOperationInstruction.write, hg, hr]

theorem byteOperation_global_skip_witness :
    ByteOperationInstruction.write ⟨ByteOp.xor 0 1 2, 3, true⟩ ⟨[]⟩ 5 = ⟨[]⟩ :=
  byteOperation_global_skip ⟨ByteOp.xor 0 1 2, 3, true⟩ ⟨[]⟩ 5 rfl (by decide)

theorem fpMulConst_packed_ext_agree_witness :
    packedConstraints ℤ Fp25519Param (List.replicate 16 0) (List.replicate 32 0)
        (List.replicate 16 0) (List.replicate 16 0) (List.replicate 30 0)
        (List.replicate 30 0)
      = extCircuitConstraints ℤ Fp25519Param (List.replicate 16 0) (List.replicate 32 0)
        (List.replicate 16 0) (List.replicate 16 0) (List.replicate 30 0)
        (List.replicate 30 0) :=
  fpMulConst_packed_ext_agree ℤ Fp25519Param (List.replicate 16 0) (List.replicate 16 0)
    (List.replicate 16 0) (List.replicate 30 0) (List.replicate 30 0) (List.replicate 32 0)
    (by decide) (by decide) (by decide) (by decide) (by decide) (by decide) (by decide)
    (by decide)

/-- C6 counterexample: two constant arrays agreeing on their first NB_LIMBS
limbs but differing at limb 16 give different trace_row results: the
row-writer consumes limbs past NB_LIMBS. -/
theorem fpMulConst_trace_row_uses_high_limbs :
    (∀ i < 16, (List.replicate 32 0 : List ℕ).getD i 0
        = (List.replicate 16 0 ++ 1 :: List.replicate 15 0 : List ℕ).getD i 0)
    ∧ (traceRow Fp25519Param (List.replicate 32 0) 1).result
        ≠ (traceRow Fp25519Param (List.replicate 16 0 ++ 1 :: List.replicate 15 0) 1).result := by
  exact ⟨by decide, by decide⟩

/-- C6 amended: only the constraint-side polynomial C(X) is determined by the
first NB_LIMBS limbs of c; constants agreeing on those limbs yield identical
packed constraints (the row-writer instead consumes the whole array). -/
theorem fpMulConst_constraints_take_nb_limbs :
    ∀ (R : Type) [CommRing R] (P : FieldParams)
      (aL resultL carryL wlowL whighL : List R) (c c2 : List ℕ),
      c.take P.nbLimbs = c2.take P.nbLimbs →
      packedConstraints R P aL c resultL carryL wlowL whighL
        = packedConstraints R P aL c2 resultL carryL wlowL whighL := by
  intro R instR P aL resultL carryL wlowL whighL c c2 h
  simp only [packedConstraints]
  rw [← List.map_take, h, List.map_take]

theorem fpMulConst_constraints_take_nb_limbs_witness :
    packedConstraints ℤ Fp25519Param (List.replicate 16 0) (List.replicate 32 0)
        (List.replicate 16 0) (List.replicate 16 0) (List.replicate 30 0)
        (List.replicate 30 0)
      = packedConstraints ℤ Fp25519Param (List.replicate 16 0)
        (List.replicate 16 0 ++ 1 :: List.replicate 15 0)
        (List.replicate 16 0) (List.replicate 16 0) (List.replicate 30 0)
        (List.replicate 30 0) :=
  fpMulConst_constraints_take_nb_limbs ℤ Fp25519Param (List.replicate 16 0)
    (List.replicate 16 0) (List.replicate 16 0) (List.replicate 30 0)
    (List.replicate 30 0) (List.replicate 32 0)
    (List.replicate 16 0 ++ 1 :: List.replicate 15 0) (by decide)

/-- C7 counterexample: for the S1 scenario (Fp25519, c = [100, 2, 30000, 0, ...],
a = 7) the result produced by trace_row differs from the value
900,964,955,648,700 stated in the spec. -/
theorem fpMulConst_s1_result_differs :
    (traceRow Fp25519Param ([100, 2, 30000] ++ List.replicate 29 0) 7).result
      ≠ 900964955648700 := by
  decide

/-- C7 amended: for the S1 scenario the row-writer produces
result = 901,943,133,078,204 (which is 7 * (100 + 2 * 2^16 + 30000 * 2^32)),
the carry register decodes to 0, and every emitted constraint residue on the
written row is zero. -/
theorem fpMulConst_s1_corrected :
    (traceRow Fp25519Param ([100, 2, 30000] ++ List.replicate 29 0) 7).result
        = 901943133078204
    ∧ decodeLimbs
        (traceRow Fp25519Param ([100, 2, 30000] ++ List.replicate 29 0) 7).carryLimbs = 0
    ∧ ∀ x ∈ rowConstraints Fp25519Param ([100, 2, 30000] ++ List.replicate 29 0) 7,
        x = 0 := by
  exact ⟨by decide, by decide, by decide⟩

/-- C8 counterexample: for the 213-byte message padded into 4 chunks, the
t_values produced by the BLAKE2b test input preparation are not
[128, 213, 213, 213]. -/
theorem blake2b_t_values_differ : tValues 213 4 ≠ [128, 213, 213, 213] := by
  decide

/-- C8 amended: the preparation yields t_values = [128, 213, 384, 512]
(the running count 128 * (i+1) except msg_len at the digest chunk), with
digest-chunk index (213 - 1) / 128 = 1, digest_bits = [0, 1, 0, 0] and
end_bits = [0, 0, 0, 1]. -/
theorem blake2b_input_prep_corrected :
    tValues 213 4 = [128, 213, 384, 512]
    ∧ msgDigestIdx 213 = 1
    ∧ digestBits 213 4 = [0, 1, 0, 0]
    ∧ endBits 4 = [0, 0, 0, 1] := by
  exact ⟨by decide, by decide, by decide, by decide⟩

/-- C9 counterexample: for a concrete FpMulConst register layout the carry
slice is written by assign_row but is not contained in the slice list
returned by memory_vec. -/
theorem fpMulConst_memory_vec_missing_carry :
    MemorySlice.locSlice 32 16 ∈ assignedSlices
        ⟨MemorySlice.locSlice 0 16, List.replicate 32 0, MemorySlice.locSlice 16 16,
          MemorySlice.locSlice 32 16, MemorySlice.locSlice 48 30, MemorySlice.locSlice 78 30⟩
    ∧ MemorySlice.locSlice 32 16 ∉ memoryVec
        ⟨MemorySlice.locSlice 0 16, List.replicate 32 0, MemorySlice.locSlice 16 16,
          MemorySlice.locSlice 32 16, MemorySlice.locSlice 48 30,
          MemorySlice.locSlice 78 30⟩ := by
  exact ⟨by decide, by decide⟩

/-- C9 amended: memory_vec reports exactly the a and result slices; the carry
slice (and likewise the witness slices) written by assign_row is not part of
the reported footprint whenever it differs from a and result. -/
theorem fpMulConst_memory_vec_contents :
    ∀ inst : FpMulConstRegs,
      inst.carry ≠ inst.a → inst.carry ≠ inst.result →
      memoryVec inst = [inst.a, inst.result]
      ∧ inst.carry ∈ assignedSlices inst
      ∧ inst.carry ∉ memoryVec inst := by
  intro inst h1 h2
  refine ⟨rfl, by simp [assignedSlices], ?_⟩
  simp [memoryVec, h1, h2]

theorem fpMulConst_memory_vec_contents_witness :
    memoryVec
        ⟨MemorySlice.locSlice 0 16, List.replicate 32 0, MemorySlice.locSlice 16 16,
          MemorySlice.locSlice 32 16, MemorySlice.locSlice 48 30, MemorySlice.locSlice 78 30⟩
      = [MemorySlice.locSlice 0 16, MemorySlice.locSlice 16 16]
    ∧ MemorySlice.locSlice 32 16 ∈ assignedSlices
        ⟨MemorySlice.locSlice 0 16, List.replicate 32 0, MemorySlice.locSlice 16 16,
          MemorySlice.locSlice 32 16, MemorySlice.locSlice 48 30, MemorySlice.locSlice 78 30⟩
    ∧ MemorySlice.locSlice 32 16 ∉ memoryVec
        ⟨MemorySlice.locSlice 0 16, List.replicate 32 0, MemorySlice.locSlice 16 16,
          MemorySlice.locSlice 32 16, MemorySlice.locSlice 48 30,
          MemorySlice.locSlice 78 30⟩ :=
  fpMulConst_memory_vec_contents
    ⟨MemorySlice.locSlice 0 16, List.replicate 32 0, MemorySlice.locSlice 16 16,
      MemorySlice.locSlice 32 16, MemorySlice.locSlice 48 30, MemorySlice.locSlice 78 30⟩
    (by decide) (by decide)

/-- C10: write_to_air applies the row-0 skip only when the writer reports a
concrete row index; with no row index the operation result and digest are
written unconditionally, regardless of the global flag. -/
theorem byteOperation_write_to_air_no_row_index :
    ∀ (inst : ByteOperationInstruction) (w : AirWriter),
      w.rowIndex = none →
      inst.writeToAir w = inst.writeToAirBody w := by
  intro inst w h
  simp only [ByteOperationInstruction.writeToAir, h]

theorem byteOperation_write_to_air_no_row_index_witness :
    ByteOperationInstruction.writeToAir ⟨ByteOp.and 0 1 2, 4, true⟩
        ⟨none, [(0, 170), (1, 60)]⟩
      = ByteOperationInstruction.writeToAirBody ⟨ByteOp.and 0 1 2, 4, true⟩
        ⟨none, [(0, 170), (1, 60)]⟩ :=
  byteOperation_write_to_air_no_row_index ⟨ByteOp.and 0 1 2, 4, true⟩
    ⟨none, [(0, 170), (1, 60)]⟩ rfl
